import Mathlib

/-!
Verification development for the say-server example: a streaming
text-to-speech server (`examples/say-server/server.py`).  The development
shallowly embeds the server's data model and operations:

* `StreamingTextChunker` (buffering/chunking of streamed text),
* the per-session TTS queue state (`TTSQueueState`) with its tools
  `add_tts_text`, `end_tts_queue`, `poll_tts_audio`,
* the background worker `_run_tts_queue` / `_process_tts_chunk`
  (chunk indices and character offsets), and
* the widget's playback scheduler `scheduleAudioChunkInternal`.

Text is modelled as `List Char`.  The SentencePiece tokenizer belongs to
the external TTS engine (pocket_tts), not to this repository; the chunker
is therefore parameterised over an abstract `Tokenizer`, and theorems that
need concrete token behaviour use `charTok`, the character-granularity
instance (every character is one token, decoding is the identity).
-/

namespace SayServer

/-- Whitespace as `str.strip()` treats it (space, tab, newline, carriage
return, vertical tab, form feed). -/
def isWs (c : Char) : Bool :=
  c == ' ' || c == '\t' || c == '\n' || c == '\r' || c == '\x0b' || c == '\x0c'

/-- Drop leading whitespace (left half of Python `str.strip()`). -/
def trimLeft (l : List Char) : List Char := l.dropWhile isWs

/-- Drop trailing whitespace (right half of Python `str.strip()`). -/
def trimRight (l : List Char) : List Char := (l.reverse.dropWhile isWs).reverse

/-- Python `str.strip()`: drop leading and trailing whitespace. -/
def trim (l : List Char) : List Char := trimLeft (trimRight l)

/-- `WsDel s t`: `t` is `s` with some (possibly zero) whitespace characters
deleted; every non-whitespace character of `s` survives, in order. -/
inductive WsDel : List Char → List Char → Prop
  | nil : WsDel [] []
  | keep (c : Char) {s t : List Char} : WsDel s t → WsDel (c :: s) (c :: t)
  | del (c : Char) {s t : List Char} : isWs c = true → WsDel s t → WsDel (c :: s) t

theorem wsDel_refl (l : List Char) : WsDel l l := by
  induction l with
  | nil => exact .nil
  | cons c l ih => exact .keep c ih

theorem wsDel_append {s t u v : List Char} (h₁ : WsDel s t) (h₂ : WsDel u v) :
    WsDel (s ++ u) (t ++ v) := by
  induction h₁ with
  | nil => simpa using h₂
  | keep c _ ih => exact .keep c ih
  | del c hc _ ih => exact .del c hc ih

theorem wsDel_of_all_ws {l : List Char} (h : ∀ c ∈ l, isWs c = true) :
    WsDel l [] := by
  induction l with
  | nil => exact .nil
  | cons c l ih =>
    exact .del c (h c (by simp)) (ih fun x hx => h x (by simp [hx]))

theorem wsDel_trans {s t u : List Char} (h₁ : WsDel s t) (h₂ : WsDel t u) :
    WsDel s u := by
  induction h₁ generalizing u with
  | nil => exact h₂
  | keep c _ ih =>
    cases h₂ with
    | keep _ h => exact .keep c (ih h)
    | del _ hc h => exact .del c hc (ih h)
  | del c hc _ ih => exact .del c hc (ih h₂)

theorem mem_takeWhile_ws {l : List Char} {c : Char}
    (h : c ∈ l.takeWhile isWs) : isWs c = true := by
  induction l with
  | nil => simp [List.takeWhile] at h
  | cons a l ih =>
    by_cases ha : isWs a
    · rw [List.takeWhile_cons_of_pos ha] at h
      rcases List.mem_cons.mp h with rfl | h
      · exact ha
      · exact ih h
    · rw [List.takeWhile_cons_of_neg ha] at h
      simp at h

theorem wsDel_trimLeft (l : List Char) : WsDel l (trimLeft l) := by
  have hsplit : l.takeWhile isWs ++ l.dropWhile isWs = l :=
    List.takeWhile_append_dropWhile isWs l
  have h₁ : WsDel (l.takeWhile isWs) [] :=
    wsDel_of_all_ws fun c hc => mem_takeWhile_ws hc
  have h₂ := wsDel_append h₁ (wsDel_refl (l.dropWhile isWs))
  rw [hsplit] at h₂
  simpa [trimLeft] using h₂

/-- `l` decomposes as its right-trimmed part followed by trailing whitespace. -/
theorem trimRight_append (l : List Char) :
    l = trimRight l ++ (l.reverse.takeWhile isWs).reverse := by
  have hsplit : l.reverse.takeWhile isWs ++ l.reverse.dropWhile isWs = l.reverse :=
    List.takeWhile_append_dropWhile isWs l.reverse
  have h := congrArg List.reverse hsplit
  rw [List.reverse_append, List.reverse_reverse] at h
  simpa [trimRight] using h.symm

theorem wsDel_trimRight (l : List Char) : WsDel l (trimRight l) := by
  have hdecomp := trimRight_append l
  have hws : WsDel ((l.reverse.takeWhile isWs).reverse) [] :=
    wsDel_of_all_ws fun c hc => mem_takeWhile_ws (by simpa using hc)
  have h := wsDel_append (wsDel_refl (trimRight l)) hws
  rw [← hdecomp] at h
  simpa using h

theorem wsDel_trim (l : List Char) : WsDel l (trim l) :=
  wsDel_trans (wsDel_trimRight l) (wsDel_trimLeft (trimRight l))

theorem trim_eq_nil_all_ws {l : List Char} (h : trim l = []) :
    ∀ c ∈ l, isWs c = true := by
  intro c hc
  have hall : ∀ x ∈ trimRight l, isWs x = true := by
    have := (List.dropWhile_eq_nil_iff).mp (by simpa [trim, trimLeft] using h)
    simpa using this
  rw [trimRight_append l] at hc
  rcases List.mem_append.mp hc with h₁ | h₂
  · exact hall c h₁
  · exact mem_takeWhile_ws (by simpa using h₂)

theorem wsDel_of_trim_eq_nil {l : List Char} (h : trim l = []) : WsDel l [] :=
  wsDel_of_all_ws (trim_eq_nil_all_ws h)

theorem dropWhile_head?_not {p : Char → Bool} {l : List Char} {a : Char}
    (h : (l.dropWhile p).head? = some a) : p a = false := by
  induction l with
  | nil => simp [List.dropWhile] at h
  | cons c l ih =>
    by_cases hc : p c
    · rw [List.dropWhile_cons_of_pos hc] at h
      exact ih h
    · rw [List.dropWhile_cons_of_neg hc] at h
      simp only [List.head?_cons, Option.some.injEq] at h
      subst h
      simpa using hc

theorem dropWhile_eq_self_of_head {p : Char → Bool} {l : List Char}
    (h : ∀ a, l.head? = some a → p a = false) : l.dropWhile p = l := by
  cases l with
  | nil => rfl
  | cons c l =>
    have hc : p c = false := h c rfl
    rw [List.dropWhile_cons_of_neg (by simp [hc])]

/-- The first character of a trimmed non-empty list is not whitespace. -/
theorem trim_head?_not_ws {l : List Char} {a : Char}
    (h : (trim l).head? = some a) : isWs a = false :=
  dropWhile_head?_not (by simpa [trim, trimLeft] using h)

/-- The last character of a trimmed non-empty list is not whitespace. -/
theorem trim_getLast?_not_ws {l : List Char} {a : Char}
    (h : (trim l).getLast? = some a) : isWs a = false := by
  have hr : (trimRight l).getLast? = some a := by
    have hsuffix : (trimRight l).dropWhile isWs <:+ trimRight l :=
      List.dropWhile_suffix isWs
    rcases hsuffix with ⟨u, hu⟩
    have hne : (trimRight l).dropWhile isWs ≠ [] := by
      intro hnil
      rw [show trim l = (trimRight l).dropWhile isWs from rfl, hnil] at h
      simp at h
    rw [← hu, List.getLast?_append_of_ne_nil u hne]
    simpa [trim, trimLeft] using h
  have : (l.reverse.dropWhile isWs).head? = some a := by
    have := hr
    rw [trimRight] at this
    simpa [List.getLast?_reverse] using this
  exact dropWhile_head?_not this

/-- `str.strip()` is idempotent. -/
theorem trim_trim (l : List Char) : trim (trim l) = trim l := by
  cases hh : (trim l).head? with
  | none =>
    have : trim l = [] := by
      cases htl : trim l with
      | nil => rfl
      | cons c t => rw [htl] at hh; simp at hh
    rw [this]
    rfl
  | some a =>
    have hlast : (trim l).getLast? ≠ none := by
      intro hnone
      have : trim l = [] := by
        cases htl : trim l with
        | nil => rfl
        | cons c t => rw [htl] at hnone; simp at hnone
      rw [this] at hh
      simp at hh
    have htr : trimRight (trim l) = trim l := by
      rw [trimRight]
      have : (trim l).reverse.dropWhile isWs = (trim l).reverse := by
        apply dropWhile_eq_self_of_head
        intro x hx
        exact trim_getLast?_not_ws (by simpa [List.head?_reverse] using hx)
      rw [this, List.reverse_reverse]
    have htl : trimLeft (trim l) = trim l := by
      apply dropWhile_eq_self_of_head
      intro x hx
      rw [hh] at hx
      cases hx
      exact trim_head?_not_ws hh
    rw [trim, htr, htl]

/-- A list containing a non-whitespace character does not trim to nothing. -/
theorem trim_ne_nil_of_mem {l : List Char} {c : Char} (hc : c ∈ l)
    (hw : isWs c = false) : trim l ≠ [] := by
  intro hnil
  have := trim_eq_nil_all_ws hnil c hc
  rw [this] at hw
  cases hw

/-- The tokenizer interface the chunker uses: `encode` is
`tokenizer(text).tokens[0].tolist()`, `decode` is `tokenizer.sp.decode`,
`isEos` is membership in the cached `eos_tokens` set.  The concrete
SentencePiece tokenizer lives in the external pocket_tts package. -/
structure Tokenizer (τ : Type) where
  encode : List Char → List τ
  decode : List τ → List Char
  isEos : τ → Bool

/-- `StreamingTextChunker`: tokenizer, `max_tokens`, `min_tokens` and the
mutable text buffer (source defaults: `max_tokens = 50`, `min_tokens = 15`). -/
structure Chunker (τ : Type) where
  tok : Tokenizer τ
  maxTokens : Nat
  minTokens : Nat
  buffer : List Char

/-- `StreamingTextChunker._ends_with_sentence_boundary`. -/
def endsWithSentenceBoundary (tok : Tokenizer τ) (tokens : List τ) : Bool :=
  match tokens.getLast? with
  | none => false
  | some t => tok.isEos t

/-- The `boundaries` loop of `_find_best_split`: position after each
end-of-sentence token (`prev_was_eos` bookkeeping), scanning from index `i`. -/
def boundariesAux (isEos : τ → Bool) : List τ → Nat → Bool → List Nat
  | [], _, _ => []
  | t :: rest, i, prev =>
    if isEos t then boundariesAux isEos rest (i + 1) true
    else if prev then i :: boundariesAux isEos rest (i + 1) false
    else boundariesAux isEos rest (i + 1) false

/-- All sentence boundaries of `_find_best_split`: the scan positions, plus
the end of the tokens when the last token is end-of-sentence punctuation. -/
def sentenceBoundaries (isEos : τ → Bool) (tokens : List τ) : List Nat :=
  let bs := boundariesAux isEos tokens 0 false
  match tokens.getLast? with
  | none => bs
  | some t => if isEos t then bs ++ [tokens.length] else bs

/-- The `best_boundary` loop of `_find_best_split`, with its early break. -/
def bestBoundaryLoop (maxT : Nat) : List Nat → Nat → Nat
  | [], best => best
  | b :: rest, best =>
    if b ≤ maxT then bestBoundaryLoop maxT rest b
    else if best = 0 then b
    else best

/-- `StreamingTextChunker._find_best_split`. -/
def findBestSplit (isEos : τ → Bool) (maxT : Nat) (tokens : List τ)
    (forceEmit : Bool) : Nat :=
  match sentenceBoundaries isEos tokens with
  | [] =>
    if maxT ≤ tokens.length then maxT
    else if forceEmit then tokens.length else 0
  | b :: rest => bestBoundaryLoop maxT (b :: rest) 0

/-- `StreamingTextChunker._try_extract_chunk`: the emitted chunk (if any)
and the buffer afterwards.  `none` paths leave the buffer untouched,
exactly as the source only assigns `self.buffer` on emission. -/
def tryExtractChunk (c : Chunker τ) (forceEmit : Bool) :
    Option (List Char) × List Char :=
  let text := trim c.buffer
  if text = [] then (none, c.buffer)
  else
    let tokens := c.tok.encode text
    let n := tokens.length
    if n < c.minTokens ∧ ¬forceEmit then (none, c.buffer)
    else if n < c.maxTokens ∧ ¬forceEmit then
      if c.minTokens ≤ n ∧ endsWithSentenceBoundary c.tok tokens then
        (some text, [])
      else (none, c.buffer)
    else
      let splitIdx := findBestSplit c.tok.isEos c.maxTokens tokens forceEmit
      if splitIdx = 0 then
        if forceEmit then (some text, []) else (none, c.buffer)
      else
        let chunkText := c.tok.decode (tokens.take splitIdx)
        let remaining := c.tok.decode (tokens.drop splitIdx)
        (some (trim chunkText), remaining)

/-- The `while True` loop of `_extract_ready_chunks`: `force_emit` is passed
only while no chunk has been extracted yet (`force_emit and not chunks`).
`fuel` bounds the iteration count; callers pass more fuel than the loop can
consume (with the character tokenizer every emission shrinks the buffer). -/
def extractLoop : Nat → Chunker τ → Bool → List (List Char) × Chunker τ
  | 0, c, _ => ([], c)
  | Nat.succ fuel, c, force =>
    match tryExtractChunk c force with
    | (none, _) => ([], c)
    | (some ch, b₂) =>
      let rest := extractLoop fuel { c with buffer := b₂ } false
      (ch :: rest.1, rest.2)

/-- `StreamingTextChunker.add_text`: append the fragment to the buffer and
extract ready chunks (no forcing). -/
def addText (c : Chunker τ) (t : List Char) : List (List Char) × Chunker τ :=
  extractLoop ((c.buffer ++ t).length + 1) { c with buffer := c.buffer ++ t } false

/-- `StreamingTextChunker.flush`: nothing if the buffer is whitespace-only;
otherwise force-extract, then emit the stripped remainder (clearing the
buffer) when it is still non-blank. -/
def flush (c : Chunker τ) : List (List Char) × Chunker τ :=
  if trim c.buffer = [] then ([], c)
  else
    match extractLoop (c.buffer.length + 1) c true with
    | (cs, c₂) =>
      if trim c₂.buffer = [] then (cs, c₂)
      else (cs ++ [trim c₂.buffer], { c₂ with buffer := [] })

/-- Feed a list of fragments through successive `add_text` calls,
accumulating the emitted chunks in order (the worker loop's text branch). -/
def feedFragments : Chunker τ → List (List Char) → List (List Char) × Chunker τ
  | c, [] => ([], c)
  | c, t :: rest =>
    let first := addText c t
    let later := feedFragments first.2 rest
    (first.1 ++ later.1, later.2)

/-- All chunks of a whole streamed session: the fragments in order through
`add_text`, then the final `flush` (the worker's EOF branch). -/
def runChunker (c : Chunker τ) (frags : List (List Char)) : List (List Char) :=
  let fed := feedFragments c frags
  fed.1 ++ (flush fed.2).1

/-- The end-of-sentence token list, built as the source builds `eos_tokens`:
tokenize `".!...?"` and drop the first token. -/
def eosTokenList : List Char := List.drop 1 ['.', '!', '.', '.', '.', '?']

/-- Character-granularity instance of the external SentencePiece tokenizer:
every character is one token and decoding is the identity, so
`decode (encode s) = s`.  End-of-sentence tokens are the characters of
`".!...?"` after the first, i.e. `.`, `!` and `?`. -/
def charTok : Tokenizer Char :=
  { encode := fun s => s
  , decode := fun ts => ts
  , isEos := fun c => eosTokenList.contains c }

/-- A chunker over the character tokenizer with the given configuration and
buffer contents. -/
def charChunker (maxT minT : Nat) (b : List Char) : Chunker Char :=
  { tok := charTok, maxTokens := maxT, minTokens := minT, buffer := b }

/-- The chunker exactly as `_run_tts_queue` constructs it:
`StreamingTextChunker(tokenizer)` with the default `max_tokens = 50`,
`min_tokens = 15` and an empty buffer. -/
def workerChunker : Chunker Char := charChunker 50 15 []

/-- One `_try_extract_chunk` step only deletes whitespace: the emitted chunk
followed by the new buffer is the old buffer with some whitespace removed. -/
theorem tryExtract_wsDel (maxT minT : Nat) (b : List Char) (force : Bool)
    {res : Option (List Char)} {b₂ : List Char}
    (h : tryExtractChunk (charChunker maxT minT b) force = (res, b₂)) :
    WsDel b (res.getD [] ++ b₂) := by
  have hkeep : WsDel b (Option.getD none [] ++ b) := by simpa using wsDel_refl b
  have hwhole : WsDel b (Option.getD (some (trim b)) [] ++ []) := by
    simpa using wsDel_trim b
  have hcut : ∀ k : Nat,
      WsDel b (Option.getD (some (trim ((trim b).take k))) [] ++ (trim b).drop k) := by
    intro k
    refine wsDel_trans (wsDel_trim b) ?_
    have h₁ : WsDel ((trim b).take k ++ (trim b).drop k)
        (trim ((trim b).take k) ++ (trim b).drop k) :=
      wsDel_append (wsDel_trim _) (wsDel_refl _)
    rw [List.take_append_drop] at h₁
    simpa using h₁
  unfold tryExtractChunk at h
  simp only [charChunker, charTok] at h
  split at h
  · injection h with h₁ h₂; subst h₁; subst h₂; exact hkeep
  · split at h
    · injection h with h₁ h₂; subst h₁; subst h₂; exact hkeep
    · split at h
      · split at h
        · injection h with h₁ h₂; subst h₁; subst h₂; exact hwhole
        · injection h with h₁ h₂; subst h₁; subst h₂; exact hkeep
      · split at h
        · split at h
          · injection h with h₁ h₂; subst h₁; subst h₂; exact hwhole
          · injection h with h₁ h₂; subst h₁; subst h₂; exact hkeep
        · injection h with h₁ h₂; subst h₁; subst h₂; exact hcut _

/-- The extraction loop only deletes whitespace: emitted chunks (in order)
followed by the final buffer are the starting buffer with some whitespace
removed, whatever the fuel. -/
theorem extractLoop_wsDel (fuel maxT minT : Nat) (b : List Char) (force : Bool) :
    WsDel b ((extractLoop fuel (charChunker maxT minT b) force).1.flatten ++
      (extractLoop fuel (charChunker maxT minT b) force).2.buffer) := by
  induction fuel generalizing b force with
  | zero => simpa [extractLoop, charChunker] using wsDel_refl b
  | succ fuel ih =>
    rcases hstep : tryExtractChunk (charChunker maxT minT b) force with ⟨res, b₂⟩
    cases res with
    | none =>
      have heq : extractLoop (Nat.succ fuel) (charChunker maxT minT b) force =
          ([], charChunker maxT minT b) := by
        simp only [extractLoop]; rw [hstep]
      rw [heq]
      simpa [charChunker] using wsDel_refl b
    | some ch =>
      have heq : extractLoop (Nat.succ fuel) (charChunker maxT minT b) force =
          (ch :: (extractLoop fuel (charChunker maxT minT b₂) false).1,
            (extractLoop fuel (charChunker maxT minT b₂) false).2) := by
        simp only [extractLoop]; rw [hstep]; rfl
      rw [heq]
      have h₁ : WsDel b (ch ++ b₂) := by
        simpa using tryExtract_wsDel maxT minT b force hstep
      have h₂ := ih b₂ false
      have h₃ : WsDel (ch ++ b₂)
          (ch ++ ((extractLoop fuel (charChunker maxT minT b₂) false).1.flatten ++
            (extractLoop fuel (charChunker maxT minT b₂) false).2.buffer)) :=
        wsDel_append (wsDel_refl ch) h₂
      have h₄ := wsDel_trans h₁ h₃
      simpa [List.append_assoc] using h₄

/-- `add_text` only deletes whitespace from buffer-plus-fragment. -/
theorem addText_wsDel (maxT minT : Nat) (b t : List Char) :
    WsDel (b ++ t) ((addText (charChunker maxT minT b) t).1.flatten ++
      (addText (charChunker maxT minT b) t).2.buffer) := by
  have hupd : ({ charChunker maxT minT b with buffer := b ++ t } : Chunker Char) =
      charChunker maxT minT (b ++ t) := rfl
  have h := extractLoop_wsDel ((b ++ t).length + 1) maxT minT (b ++ t) false
  simpa [addText, hupd, charChunker] using h

/-- Computation rule for `flush` once the extraction loop's result is known. -/
theorem flush_eq (c : Chunker τ) (hne : ¬trim c.buffer = [])
    {cs : List (List Char)} {c₂ : Chunker τ}
    (hloop : extractLoop (c.buffer.length + 1) c true = (cs, c₂)) :
    flush c = if trim c₂.buffer = [] then (cs, c₂)
      else (cs ++ [trim c₂.buffer], { c₂ with buffer := [] }) := by
  unfold flush
  rw [if_neg hne, hloop]

/-- `flush` flushes everything: its chunks are the buffer with some
whitespace removed (no text stays behind). -/
theorem flush_wsDel (maxT minT : Nat) (b : List Char) :
    WsDel b (flush (charChunker maxT minT b)).1.flatten := by
  by_cases hnil : trim b = []
  · have heq : flush (charChunker maxT minT b) = ([], charChunker maxT minT b) := by
      unfold flush
      rw [if_pos (by simpa [charChunker] using hnil)]
    rw [heq]
    simpa using wsDel_of_trim_eq_nil hnil
  · rcases hloop : extractLoop ((charChunker maxT minT b).buffer.length + 1)
        (charChunker maxT minT b) true with ⟨cs, c₂⟩
    have hmain : WsDel b (cs.flatten ++ c₂.buffer) := by
      have h := extractLoop_wsDel ((charChunker maxT minT b).buffer.length + 1)
        maxT minT b true
      rw [hloop] at h
      simpa using h
    have heq := flush_eq (charChunker maxT minT b)
      (by simpa [charChunker] using hnil) hloop
    rw [heq]
    by_cases hnil₂ : trim c₂.buffer = []
    · rw [if_pos hnil₂]
      have hdrop : WsDel (cs.flatten ++ c₂.buffer) (cs.flatten ++ []) :=
        wsDel_append (wsDel_refl _) (wsDel_of_trim_eq_nil hnil₂)
      simpa using wsDel_trans hmain hdrop
    · rw [if_neg hnil₂]
      have hdrop : WsDel (cs.flatten ++ c₂.buffer) (cs.flatten ++ trim c₂.buffer) :=
        wsDel_append (wsDel_refl _) (wsDel_trim _)
      have h₂ := wsDel_trans hmain hdrop
      simpa [List.flatten_append] using h₂

/-- The extraction loop changes only the buffer: its final chunker is again
a `charChunker` with the same configuration. -/
theorem extractLoop_shape (fuel maxT minT : Nat) (b : List Char) (force : Bool) :
    (extractLoop fuel (charChunker maxT minT b) force).2 =
      charChunker maxT minT
        (extractLoop fuel (charChunker maxT minT b) force).2.buffer := by
  induction fuel generalizing b force with
  | zero => rfl
  | succ fuel ih =>
    rcases hstep : tryExtractChunk (charChunker maxT minT b) force with ⟨res, b₂⟩
    cases res with
    | none => simp [extractLoop, hstep]; rfl
    | some ch =>
      have hupd : ({ charChunker maxT minT b with buffer := b₂ } : Chunker Char) =
          charChunker maxT minT b₂ := rfl
      simpa [extractLoop, hstep, hupd] using ih b₂ false

/-- `add_text` changes only the buffer of a `charChunker`. -/
theorem addText_shape (maxT minT : Nat) (b t : List Char) :
    (addText (charChunker maxT minT b) t).2 =
      charChunker maxT minT (addText (charChunker maxT minT b) t).2.buffer := by
  have hupd : ({ charChunker maxT minT b with buffer := b ++ t } : Chunker Char) =
      charChunker maxT minT (b ++ t) := rfl
  simpa [addText, hupd, charChunker] using
    extractLoop_shape ((b ++ t).length + 1) maxT minT (b ++ t) false

/-- Feeding fragments through `add_text` only deletes whitespace. -/
theorem feedFragments_wsDel (maxT minT : Nat) (b : List Char)
    (frags : List (List Char)) :
    WsDel (b ++ frags.flatten)
      ((feedFragments (charChunker maxT minT b) frags).1.flatten ++
        (feedFragments (charChunker maxT minT b) frags).2.buffer) := by
  induction frags generalizing b with
  | nil => simpa [feedFragments, charChunker] using wsDel_refl b
  | cons t rest ih =>
    rcases hadd : addText (charChunker maxT minT b) t with ⟨cs, c₂⟩
    have hshape := addText_shape maxT minT b t
    rw [hadd] at hshape
    simp only at hshape
    have hstep : WsDel (b ++ t) (cs.flatten ++ c₂.buffer) := by
      have := addText_wsDel maxT minT b t
      rw [hadd] at this
      simpa using this
    have hrest := ih c₂.buffer
    rw [← hshape] at hrest
    have hcons : WsDel ((b ++ t) ++ rest.flatten)
        ((cs.flatten ++ c₂.buffer) ++ rest.flatten) :=
      wsDel_append hstep (wsDel_refl _)
    have htail : WsDel ((cs.flatten ++ c₂.buffer) ++ rest.flatten)
        (cs.flatten ++ ((feedFragments c₂ rest).1.flatten ++
          (feedFragments c₂ rest).2.buffer)) := by
      have := wsDel_append (wsDel_refl cs.flatten) hrest
      simpa [List.append_assoc] using this
    have := wsDel_trans hcons htail
    simpa [feedFragments, hadd, List.flatten_cons, List.append_assoc] using this

/-- `feedFragments` changes only the buffer of a `charChunker`. -/
theorem feedFragments_shape (maxT minT : Nat) (b : List Char)
    (frags : List (List Char)) :
    (feedFragments (charChunker maxT minT b) frags).2 =
      charChunker maxT minT
        (feedFragments (charChunker maxT minT b) frags).2.buffer := by
  induction frags generalizing b with
  | nil => rfl
  | cons t rest ih =>
    rcases hadd : addText (charChunker maxT minT b) t with ⟨cs, c₂⟩
    have hshape := addText_shape maxT minT b t
    rw [hadd] at hshape
    simp only at hshape
    have := ih c₂.buffer
    rw [← hshape] at this
    simpa [feedFragments, hadd] using this

/-- One full chunker session (`add_text` calls in order, then `flush`) only
deletes whitespace: the concatenation of all emitted chunks is the
concatenation of buffer and fragments with some whitespace removed. -/
theorem runChunker_wsDel (maxT minT : Nat) (b : List Char)
    (frags : List (List Char)) :
    WsDel (b ++ frags.flatten)
      (runChunker (charChunker maxT minT b) frags).flatten := by
  rcases hfeed : feedFragments (charChunker maxT minT b) frags with ⟨cs, c₂⟩
  have hshape := feedFragments_shape maxT minT b frags
  rw [hfeed] at hshape
  simp only at hshape
  have hfed : WsDel (b ++ frags.flatten) (cs.flatten ++ c₂.buffer) := by
    have := feedFragments_wsDel maxT minT b frags
    rw [hfeed] at this
    simpa using this
  have hfl : WsDel c₂.buffer (flush c₂).1.flatten := by
    have := flush_wsDel maxT minT c₂.buffer
    rw [← hshape] at this
    exact this
  have htail : WsDel (cs.flatten ++ c₂.buffer)
      (cs.flatten ++ (flush c₂).1.flatten) :=
    wsDel_append (wsDel_refl _) hfl
  have := wsDel_trans hfed htail
  simpa [runChunker, hfeed, List.flatten_append] using this

/-- A chunk emitted by one `_try_extract_chunk` step is non-empty and
carries no leading or trailing whitespace (character tokenizer). -/
theorem tryExtract_chunk_clean (maxT minT : Nat) (b : List Char) (force : Bool)
    {ch b₂ : List Char}
    (h : tryExtractChunk (charChunker maxT minT b) force = (some ch, b₂)) :
    ch ≠ [] ∧ trim ch = ch := by
  have hwhole : ∀ hnil : ¬trim b = [], trim b ≠ [] ∧ trim (trim b) = trim b :=
    fun hnil => ⟨hnil, trim_trim b⟩
  have hcut : ∀ k : Nat, ¬trim b = [] → k ≠ 0 →
      trim ((trim b).take k) ≠ [] ∧
        trim (trim ((trim b).take k)) = trim ((trim b).take k) := by
    intro k hnil hk
    refine ⟨?_, trim_trim _⟩
    cases htb : trim b with
    | nil => exact absurd htb hnil
    | cons a t =>
      have ha : isWs a = false := trim_head?_not_ws (by rw [htb]; rfl)
      cases k with
      | zero => exact absurd rfl hk
      | succ k =>
        have hmem : a ∈ (a :: t).take (k + 1) := by
          rw [List.take_succ_cons]
          simp
        exact trim_ne_nil_of_mem hmem ha
  unfold tryExtractChunk at h
  simp only [charChunker, charTok] at h
  split at h
  · next hnil => exact absurd h (by simp)
  · next hnil =>
    split at h
    · exact absurd h (by simp)
    · split at h
      · split at h
        · injection h with h₁ h₂
          injection h₁ with h₁
          subst h₁
          exact hwhole hnil
        · exact absurd h (by simp)
      · split at h
        · split at h
          · injection h with h₁ h₂
            injection h₁ with h₁
            subst h₁
            exact hwhole hnil
          · exact absurd h (by simp)
        · next hk =>
          injection h with h₁ h₂
          injection h₁ with h₁
          subst h₁
          exact hcut _ hnil hk

/-- Every chunk the extraction loop emits is non-empty and trimmed. -/
theorem extractLoop_chunks_clean (fuel maxT minT : Nat) (b : List Char)
    (force : Bool) :
    ∀ ch ∈ (extractLoop fuel (charChunker maxT minT b) force).1,
      ch ≠ [] ∧ trim ch = ch := by
  induction fuel generalizing b force with
  | zero => intro ch hch; simp [extractLoop] at hch
  | succ fuel ih =>
    intro ch hch
    rcases hstep : tryExtractChunk (charChunker maxT minT b) force with ⟨res, b₂⟩
    cases res with
    | none =>
      have heq : extractLoop (Nat.succ fuel) (charChunker maxT minT b) force =
          ([], charChunker maxT minT b) := by
        simp only [extractLoop]; rw [hstep]
      rw [heq] at hch
      simp at hch
    | some ch₀ =>
      have heq : extractLoop (Nat.succ fuel) (charChunker maxT minT b) force =
          (ch₀ :: (extractLoop fuel (charChunker maxT minT b₂) false).1,
            (extractLoop fuel (charChunker maxT minT b₂) false).2) := by
        simp only [extractLoop]; rw [hstep]; rfl
      rw [heq] at hch
      rcases List.mem_cons.mp hch with rfl | hch
      · exact tryExtract_chunk_clean maxT minT b force hstep
      · exact ih b₂ false ch hch

/-- Every chunk `add_text` emits is non-empty and trimmed. -/
theorem addText_chunks_clean (maxT minT : Nat) (b t : List Char) :
    ∀ ch ∈ (addText (charChunker maxT minT b) t).1, ch ≠ [] ∧ trim ch = ch := by
  intro ch hch
  refine extractLoop_chunks_clean ((b ++ t).length + 1) maxT minT (b ++ t) false ch ?_
  have heq : (addText (charChunker maxT minT b) t).1 =
      (extractLoop ((b ++ t).length + 1) (charChunker maxT minT (b ++ t)) false).1 := rfl
  rw [← heq]
  exact hch

/-- Every chunk `flush` emits is non-empty and trimmed. -/
theorem flush_chunks_clean (maxT minT : Nat) (b : List Char) :
    ∀ ch ∈ (flush (charChunker maxT minT b)).1, ch ≠ [] ∧ trim ch = ch := by
  intro ch hch
  by_cases hnil : trim b = []
  · rw [show flush (charChunker maxT minT b) = ([], charChunker maxT minT b) by
      unfold flush; rw [if_pos (by simpa [charChunker] using hnil)]] at hch
    simp at hch
  · rcases hloop : extractLoop ((charChunker maxT minT b).buffer.length + 1)
        (charChunker maxT minT b) true with ⟨cs, c₂⟩
    have hclean : ∀ x ∈ cs, x ≠ [] ∧ trim x = x := by
      intro x hx
      have := extractLoop_chunks_clean ((charChunker maxT minT b).buffer.length + 1)
        maxT minT b true x
      rw [hloop] at this
      exact this hx
    have heq := flush_eq (charChunker maxT minT b)
      (by simpa [charChunker] using hnil) hloop
    rw [heq] at hch
    by_cases hnil₂ : trim c₂.buffer = []
    · rw [if_pos hnil₂] at hch
      exact hclean ch hch
    · rw [if_neg hnil₂] at hch
      rcases List.mem_append.mp hch with hch | hch
      · exact hclean ch hch
      · rcases List.mem_singleton.mp hch with rfl
        exact ⟨hnil₂, trim_trim _⟩

/-- If the first `_try_extract_chunk` step emits nothing, neither does the
whole extraction loop. -/
theorem extractLoop_emits_nil (fuel : Nat) (c : Chunker τ) (force : Bool)
    (h : (tryExtractChunk c force).1 = none) :
    (extractLoop fuel c force).1 = [] := by
  cases fuel with
  | zero => rfl
  | succ fuel =>
    rcases hstep : tryExtractChunk c force with ⟨res, b₂⟩
    rw [hstep] at h
    simp only at h
    subst h
    have heq : extractLoop (Nat.succ fuel) c force = ([], c) := by
      simp only [extractLoop]; rw [hstep]
    rw [heq]

/-- Below `min_tokens` and unforced, `_try_extract_chunk` emits nothing
(this is its first guard, for any tokenizer). -/
theorem tryExtract_none_of_lt_min (c : Chunker τ)
    (hmin : (c.tok.encode (trim c.buffer)).length < c.minTokens) :
    (tryExtractChunk c false).1 = none := by
  unfold tryExtractChunk
  by_cases hnil : trim c.buffer = []
  · simp [hnil]
  · simp [hnil, hmin]

/-- Bounds on the scan positions collected by the `boundaries` loop. -/
theorem boundariesAux_mem (isEos : τ → Bool) :
    ∀ (ts : List τ) (i : Nat) (prev : Bool), ∀ e ∈ boundariesAux isEos ts i prev,
      i ≤ e ∧ e < i + ts.length ∧ (prev = false → i < e) := by
  intro ts
  induction ts with
  | nil => intro i prev e he; simp [boundariesAux] at he
  | cons t rest ih =>
    intro i prev e he
    simp only [boundariesAux] at he
    by_cases ht : isEos t
    · rw [if_pos ht] at he
      obtain ⟨h₁, h₂, -⟩ := ih (i + 1) true e he
      refine ⟨by omega, ?_, fun _ => by omega⟩
      simp only [List.length_cons]
      omega
    · rw [if_neg ht] at he
      by_cases hp : prev
      · rw [if_pos hp] at he
        rcases List.mem_cons.mp he with rfl | he
        · refine ⟨le_refl _, ?_, fun hpf => ?_⟩
          · simp only [List.length_cons]; omega
          · rw [hpf] at hp; cases hp
        · obtain ⟨h₁, h₂, h₃⟩ := ih (i + 1) false e he
          have h₄ := h₃ rfl
          refine ⟨by omega, ?_, fun _ => by omega⟩
          simp only [List.length_cons]
          omega
      · rw [if_neg hp] at he
        obtain ⟨h₁, h₂, h₃⟩ := ih (i + 1) false e he
        have h₄ := h₃ rfl
        refine ⟨by omega, ?_, fun _ => by omega⟩
        simp only [List.length_cons]
        omega

/-- The scan positions are collected in strictly increasing order. -/
theorem boundariesAux_chain (isEos : τ → Bool) :
    ∀ (ts : List τ) (i : Nat) (prev : Bool),
      List.Chain' (· < ·) (boundariesAux isEos ts i prev) := by
  intro ts
  induction ts with
  | nil => intro i prev; simp [boundariesAux]
  | cons t rest ih =>
    intro i prev
    simp only [boundariesAux]
    by_cases ht : isEos t
    · rw [if_pos ht]; exact ih (i + 1) true
    · rw [if_neg ht]
      by_cases hp : prev
      · rw [if_pos hp]
        rw [List.chain'_cons']
        refine ⟨?_, ih (i + 1) false⟩
        intro y hy
        obtain ⟨h₁, -, h₃⟩ := boundariesAux_mem isEos rest (i + 1) false y
          (List.mem_of_mem_head? hy)
        omega
      · rw [if_neg hp]; exact ih (i + 1) false

/-- Every sentence boundary is at least 1 and at most the token count. -/
theorem sentenceBoundaries_mem_bounds (isEos : τ → Bool) (ts : List τ) :
    ∀ e ∈ sentenceBoundaries isEos ts, 1 ≤ e ∧ e ≤ ts.length := by
  intro e he
  have haux : e ∈ boundariesAux isEos ts 0 false → 1 ≤ e ∧ e ≤ ts.length := by
    intro h
    obtain ⟨-, h₂, h₃⟩ := boundariesAux_mem isEos ts 0 false e h
    have := h₃ rfl
    omega
  simp only [sentenceBoundaries] at he
  cases hlast : ts.getLast? with
  | none => rw [hlast] at he; exact haux he
  | some t =>
    rw [hlast] at he
    by_cases ht : isEos t
    · simp only [ht, if_true, List.mem_append] at he
      rcases he with he | he
      · exact haux he
      · rcases List.mem_singleton.mp he with rfl
        have hne : ts ≠ [] := by
          intro h; rw [h] at hlast; simp at hlast
        exact ⟨List.length_pos.mpr hne, le_refl _⟩
    · simp only [ht, if_false] at he
      exact haux he

/-- The sentence-boundary list is strictly increasing. -/
theorem sentenceBoundaries_chain (isEos : τ → Bool) (ts : List τ) :
    List.Chain' (· < ·) (sentenceBoundaries isEos ts) := by
  simp only [sentenceBoundaries]
  cases hlast : ts.getLast? with
  | none => exact boundariesAux_chain isEos ts 0 false
  | some t =>
    by_cases ht : isEos t
    · simp only [ht, if_true]
      rw [List.chain'_append]
      refine ⟨boundariesAux_chain isEos ts 0 false, by simp, ?_⟩
      intro x hx y hy
      obtain ⟨-, h₂, -⟩ := boundariesAux_mem isEos ts 0 false x
        (List.mem_of_mem_getLast? hx)
      rcases List.mem_singleton.mp (List.mem_of_mem_head? hy) with rfl
      omega
    · simp only [ht, if_false]
      exact boundariesAux_chain isEos ts 0 false

/-- The `best_boundary` loop over a block of boundaries all at or below the
budget just carries the last of them forward as the running best. -/
theorem bestBoundaryLoop_good (maxT : Nat) :
    ∀ (good bad : List Nat) (best : Nat), (∀ b ∈ good, b ≤ maxT) →
      bestBoundaryLoop maxT (good ++ bad) best =
        bestBoundaryLoop maxT bad (good.getLastD best) := by
  intro good
  induction good with
  | nil => intro bad best h; rfl
  | cons g rest ih =>
    intro bad best h
    have hg : g ≤ maxT := h g (by simp)
    simp only [List.cons_append, bestBoundaryLoop, List.append_eq]
    rw [if_pos hg, ih bad g fun b hb => h b (by simp [hb]), List.getLastD_cons]

/-- The `best_boundary` loop over boundaries all beyond the budget: keep the
running best, except that a zero sentinel takes the first boundary. -/
theorem bestBoundaryLoop_bad (maxT : Nat) (bad : List Nat) (best : Nat)
    (h : ∀ b ∈ bad, maxT < b) :
    bestBoundaryLoop maxT bad best =
      match bad with
      | [] => best
      | b :: _ => if best = 0 then b else best := by
  cases bad with
  | nil => rfl
  | cons b rest =>
    have hb : maxT < b := h b (by simp)
    simp only [bestBoundaryLoop]
    rw [if_neg (by omega)]

theorem getLastD_mem : ∀ (l : List Nat) (d : Nat), l ≠ [] → l.getLastD d ∈ l := by
  intro l
  induction l with
  | nil => intro d h; exact absurd rfl h
  | cons a rest ih =>
    intro d h
    rw [List.getLastD_cons]
    cases hrest : rest with
    | nil => simp [hrest]
    | cons x xs =>
      exact List.mem_cons.mpr (Or.inr (hrest ▸ ih a (by rw [hrest]; simp)))

theorem pairwise_le_getLastD :
    ∀ (l : List Nat), List.Pairwise (· < ·) l → ∀ (d : Nat), ∀ b ∈ l,
      b ≤ l.getLastD d := by
  intro l
  induction l with
  | nil => intro _ d b hb; simp at hb
  | cons a rest ih =>
    intro hp d b hb
    rw [List.getLastD_cons]
    rcases List.mem_cons.mp hb with rfl | hb
    · cases hrest : rest with
      | nil => simp [hrest]
      | cons x xs =>
        rw [← hrest]
        have hmem : rest.getLastD b ∈ rest := getLastD_mem rest b (by rw [hrest]; simp)
        have := (List.pairwise_cons.mp hp).1 _ hmem
        omega
    · exact ih (List.pairwise_cons.mp hp).2 a b hb

/-- In a strictly increasing list, everything the `takeWhile (· ≤ maxT)`
prefix leaves behind is beyond the budget. -/
theorem mem_dropWhile_gt (maxT : Nat) :
    ∀ (bs : List Nat), List.Pairwise (· < ·) bs →
      ∀ b ∈ bs.dropWhile (fun x => decide (x ≤ maxT)), maxT < b := by
  intro bs
  induction bs with
  | nil => intro _ b hb; simp at hb
  | cons a rest ih =>
    intro hp b hb
    by_cases ha : a ≤ maxT
    · rw [List.dropWhile_cons_of_pos (by simpa using ha)] at hb
      exact ih (List.pairwise_cons.mp hp).2 b hb
    · rw [List.dropWhile_cons_of_neg (by simpa using ha)] at hb
      rcases List.mem_cons.mp hb with rfl | hb
      · omega
      · have := (List.pairwise_cons.mp hp).1 b hb
        omega

/-- Full characterisation of `_find_best_split`.  With sentence boundaries
present, the split is the largest boundary at or below `max_tokens` when
one exists, and otherwise the first boundary.  With no boundary, the split
is at `max_tokens` once the token count has reached it, and at the end of
the tokens under forced emission below `max_tokens`. -/
theorem findBestSplit_spec (isEos : τ → Bool) (maxT : Nat) (tokens : List τ)
    (force : Bool) :
    (sentenceBoundaries isEos tokens = [] → maxT ≤ tokens.length →
      findBestSplit isEos maxT tokens force = maxT) ∧
    (sentenceBoundaries isEos tokens = [] → tokens.length < maxT → force = true →
      findBestSplit isEos maxT tokens force = tokens.length) ∧
    ((∃ b ∈ sentenceBoundaries isEos tokens, b ≤ maxT) →
      findBestSplit isEos maxT tokens force ∈ sentenceBoundaries isEos tokens ∧
      findBestSplit isEos maxT tokens force ≤ maxT ∧
      ∀ b ∈ sentenceBoundaries isEos tokens, b ≤ maxT →
        b ≤ findBestSplit isEos maxT tokens force) ∧
    (sentenceBoundaries isEos tokens ≠ [] →
      (∀ b ∈ sentenceBoundaries isEos tokens, maxT < b) →
      (sentenceBoundaries isEos tokens).head? =
        some (findBestSplit isEos maxT tokens force)) := by
  have hchain := sentenceBoundaries_chain isEos tokens
  have hbounds := sentenceBoundaries_mem_bounds isEos tokens
  cases hbs : sentenceBoundaries isEos tokens with
  | nil =>
    refine ⟨?_, ?_, ?_, ?_⟩
    · intro _ hlen
      simp only [findBestSplit, hbs]
      rw [if_pos hlen]
    · intro _ hlen hforce
      simp only [findBestSplit, hbs]
      rw [if_neg (by omega), if_pos hforce]
    · rintro ⟨b, hb, -⟩
      simp at hb
    · intro hne
      exact absurd rfl hne
  | cons b₀ rest =>
    rw [hbs] at hchain hbounds
    have hpair : List.Pairwise (· < ·) (b₀ :: rest) :=
      List.chain'_iff_pairwise.mp hchain
    have hr : findBestSplit isEos maxT tokens force =
        bestBoundaryLoop maxT (b₀ :: rest) 0 := by
      simp only [findBestSplit, hbs]
    have hsplit : (b₀ :: rest).takeWhile (fun x => decide (x ≤ maxT)) ++
        (b₀ :: rest).dropWhile (fun x => decide (x ≤ maxT)) = b₀ :: rest :=
      List.takeWhile_append_dropWhile _ _
    have hgood_le : ∀ x ∈ (b₀ :: rest).takeWhile (fun x => decide (x ≤ maxT)),
        x ≤ maxT := by
      intro y hy
      have hp := List.mem_takeWhile_imp hy
      simpa using hp
    have hbad_gt : ∀ x ∈ (b₀ :: rest).dropWhile (fun x => decide (x ≤ maxT)),
        maxT < x := mem_dropWhile_gt maxT (b₀ :: rest) hpair
    have hloop : bestBoundaryLoop maxT (b₀ :: rest) 0 =
        bestBoundaryLoop maxT ((b₀ :: rest).dropWhile (fun x => decide (x ≤ maxT)))
          (((b₀ :: rest).takeWhile (fun x => decide (x ≤ maxT))).getLastD 0) := by
      conv_lhs => rw [← hsplit]
      exact bestBoundaryLoop_good maxT _ _ 0 hgood_le
    refine ⟨fun h => absurd h (by simp), fun h => absurd h (by simp), ?_, ?_⟩
    · rintro ⟨bw, hbw, hbwle⟩
      have hbw₂ : bw ∈ (b₀ :: rest).takeWhile (fun x => decide (x ≤ maxT)) := by
        rcases List.mem_append.mp (hsplit ▸ hbw) with h | h
        · exact h
        · exact absurd (hbad_gt bw h) (by omega)
      have hgoodne : (b₀ :: rest).takeWhile (fun x => decide (x ≤ maxT)) ≠ [] :=
        List.ne_nil_of_mem hbw₂
      have hr'mem : ((b₀ :: rest).takeWhile (fun x => decide (x ≤ maxT))).getLastD 0 ∈
          (b₀ :: rest).takeWhile (fun x => decide (x ≤ maxT)) :=
        getLastD_mem _ 0 hgoodne
      have hr'bs : ((b₀ :: rest).takeWhile (fun x => decide (x ≤ maxT))).getLastD 0 ∈
          b₀ :: rest := by
        have hm := List.mem_append_left
          ((b₀ :: rest).dropWhile (fun x => decide (x ≤ maxT))) hr'mem
        rwa [hsplit] at hm
      have hr'le : ((b₀ :: rest).takeWhile (fun x => decide (x ≤ maxT))).getLastD 0 ≤
          maxT := hgood_le _ hr'mem
      have hr'pos : 1 ≤ ((b₀ :: rest).takeWhile (fun x => decide (x ≤ maxT))).getLastD 0 :=
        (hbounds _ hr'bs).1
      have hfinal : bestBoundaryLoop maxT (b₀ :: rest) 0 =
          ((b₀ :: rest).takeWhile (fun x => decide (x ≤ maxT))).getLastD 0 := by
        rw [hloop]
        cases hbad : (b₀ :: rest).dropWhile (fun x => decide (x ≤ maxT)) with
        | nil => rfl
        | cons bb bba =>
          rw [bestBoundaryLoop_bad maxT _ _ (hbad ▸ hbad_gt)]
          simp only
          rw [if_neg (by omega)]
      refine ⟨?_, ?_, ?_⟩
      · rw [hr, hfinal]; exact hr'bs
      · rw [hr, hfinal]; exact hr'le
      · intro b hb hble
        rw [hr, hfinal]
        have hbgood : b ∈ (b₀ :: rest).takeWhile (fun x => decide (x ≤ maxT)) := by
          rcases List.mem_append.mp (hsplit ▸ hb) with h | h
          · exact h
          · exact absurd (hbad_gt b h) (by omega)
        exact pairwise_le_getLastD _
          (hpair.sublist ((List.takeWhile_prefix _).sublist)) 0 b hbgood
    · intro hne hall
      have hb₀ : maxT < b₀ := hall b₀ (by simp)
      have hgood : (b₀ :: rest).takeWhile (fun x => decide (x ≤ maxT)) = [] := by
        rw [List.takeWhile_cons_of_neg (by simp; omega)]
      have hbad : (b₀ :: rest).dropWhile (fun x => decide (x ≤ maxT)) = b₀ :: rest := by
        rw [List.dropWhile_cons_of_neg (by simp; omega)]
      rw [hr, hloop, hgood, hbad, bestBoundaryLoop_bad maxT _ _ hall]
      simp

/-- `AudioChunkData`: audio chunk with timing metadata. -/
structure AudioChunkData where
  index : Nat
  audioBase64 : List Char
  charStart : Nat
  charEnd : Nat
  durationMs : ℚ
deriving DecidableEq

/-- Session status (`TTSQueueState.status`): `"active"`, `"complete"` or
`"error"`. -/
inductive QStatus
  | active
  | complete
  | error
deriving DecidableEq

/-- Terminal statuses in the spec's sense: `Complete` or `Error`. -/
def statusTerminal : QStatus → Bool
  | .active => false
  | .complete => true
  | .error => true

/-- `asyncio.Queue`: `maxsize = 0` means unbounded (the dataclass default
`field(default_factory=asyncio.Queue)` constructs exactly that).  Items are
text fragments or the `None` end-of-stream marker. -/
structure TextQueue where
  maxsize : Nat
  items : List (Option (List Char))
deriving DecidableEq

/-- `asyncio.Queue.full()`: true iff `0 < maxsize ≤ qsize()`. -/
def TextQueue.isFull (q : TextQueue) : Bool :=
  decide (0 < q.maxsize) && decide (q.maxsize ≤ q.items.length)

/-- `asyncio.Queue.put_nowait`: `none` models the raised `QueueFull`. -/
def putNowait (q : TextQueue) (x : Option (List Char)) : Option TextQueue :=
  if q.isFull then none else some { q with items := q.items ++ [x] }

/-- `TTSQueueState`: one TTS generation session. -/
structure TTSQueueState where
  id : List Char
  voice : List Char
  sampleRate : Nat
  status : QStatus
  errorMessage : Option (List Char)
  textQueue : TextQueue
  endSignaled : Bool
  audioChunks : List AudioChunkData
  chunksDelivered : Nat
deriving DecidableEq

/-- `create_tts_queue`: fresh state with `status="active"`, an unbounded
empty text queue, no chunks and a zero delivery cursor. -/
def createTTSQueue (queueId voice : List Char) (sampleRate : Nat) : TTSQueueState :=
  { id := queueId
  , voice := voice
  , sampleRate := sampleRate
  , status := .active
  , errorMessage := none
  , textQueue := { maxsize := 0, items := [] }
  , endSignaled := false
  , audioChunks := []
  , chunksDelivered := 0 }

/-- Result of `add_tts_text` (session found; the registry's `NotFound`
branch precedes these checks). -/
inductive AddTextResult
  | alreadyEnded
  | queueFull
  | queued
deriving DecidableEq

/-- `add_tts_text` on an existing session: reject after `end_signaled`,
else `put_nowait` the fragment (`QueueFull` is caught and reported). -/
def addTtsText (s : TTSQueueState) (t : List Char) : AddTextResult × TTSQueueState :=
  if s.endSignaled then (.alreadyEnded, s)
  else
    match putNowait s.textQueue (some t) with
    | none => (.queueFull, s)
    | some q => (.queued, { s with textQueue := q })

/-- Result of `end_tts_queue` on an existing session: `alreadyEnded` is the
non-error `{"already_ended": true}` acknowledgment, `ended` is
`{"ended": true}`. -/
inductive EndResult
  | alreadyEnded
  | ended
deriving DecidableEq

/-- `end_tts_queue` on an existing session: idempotent; the first call sets
`end_signaled` and then enqueues the `None` EOF marker (a `QueueFull` on
that put is swallowed by `pass`, leaving only `end_signaled` set). -/
def endTtsQueue (s : TTSQueueState) : EndResult × TTSQueueState :=
  if s.endSignaled then (.alreadyEnded, s)
  else
    match putNowait s.textQueue none with
    | none => (.ended, { s with endSignaled := true })
    | some q => (.ended, { s with endSignaled := true, textQueue := q })

/-- The poll response: new chunks since the delivery cursor, the `done`
flag and the session status. -/
structure PollResponse where
  chunks : List AudioChunkData
  done : Bool
  status : QStatus
deriving DecidableEq

/-- `poll_tts_audio` on an existing session: take the chunks past the
cursor, advance the cursor to the full length, then compute
`done = (status == "complete") and (chunks_delivered >= len(audio_chunks))`
on the updated state. -/
def pollTtsAudio (s : TTSQueueState) : PollResponse × TTSQueueState :=
  let newChunks := s.audioChunks.drop s.chunksDelivered
  let s₂ : TTSQueueState := { s with chunksDelivered := s.audioChunks.length }
  let done := decide (s₂.status = QStatus.complete) &&
    decide (s₂.audioChunks.length ≤ s₂.chunksDelivered)
  (⟨newChunks, done, s₂.status⟩, s₂)

/-- The session-level operations that touch `audio_chunks` or the delivery
cursor while a session lives: a widget poll, or the worker appending one
generated chunk (`_process_tts_chunk`'s `state.audio_chunks.append`). -/
inductive SessionOp
  | pollOp
  | appendChunk (c : AudioChunkData)

/-- Apply one session operation. -/
def applySessionOp (s : TTSQueueState) : SessionOp → TTSQueueState
  | .pollOp => (pollTtsAudio s).2
  | .appendChunk c => { s with audioChunks := s.audioChunks ++ [c] }

/-- Run a list of session operations in order. -/
def runSession (s : TTSQueueState) : List SessionOp → TTSQueueState
  | [] => s
  | op :: ops => runSession (applySessionOp s op) ops

/-- `_process_tts_chunk` over a list of text chunks: starting from
`chunk_index = idx` and `char_offset = off`, each chunk becomes an
`AudioChunkData` with `index = chunk_index`, `char_start = char_offset`,
`char_end = char_offset + len(text)`; then the counters advance.  `synth`
is the external TTS backend (base64 audio and duration per text chunk). -/
def buildAudioChunks (synth : List Char → List Char × ℚ) :
    List (List Char) → Nat → Nat → List AudioChunkData
  | [], _, _ => []
  | t :: rest, idx, off =>
    { index := idx
    , audioBase64 := (synth t).1
    , charStart := off
    , charEnd := off + t.length
    , durationMs := (synth t).2 } :: buildAudioChunks synth rest (idx + 1) (off + t.length)

/-- The audio chunks `_run_tts_queue` appends for a session whose pending
text is `frags` followed by the EOF marker: the worker's chunker (defaults
50/15) consumes the fragments, flushes at EOF, and every emitted text chunk
is processed in order with the running `chunk_index`/`char_offset`. -/
def runTtsQueueAudio (synth : List Char → List Char × ℚ)
    (frags : List (List Char)) : List AudioChunkData :=
  buildAudioChunks synth (runChunker workerChunker frags) 0 0

/-- A chunk as the widget's scheduler receives it: character range and
decoded buffer duration (seconds). -/
structure InChunk where
  charStart : Nat
  charEnd : Nat
  duration : ℚ
deriving DecidableEq

/-- `ChunkTiming`: the entry `scheduleAudioChunkInternal` pushes onto
`chunkTimingsRef`. -/
structure ChunkTiming where
  charStart : Nat
  charEnd : Nat
  audioStartTime : ℚ
  audioEndTime : ℚ
deriving DecidableEq

/-- The scheduler's mutable state: `nextPlayTimeRef` and
`chunkTimingsRef`. -/
structure SchedState where
  nextPlayTime : ℚ
  timings : List ChunkTiming
deriving DecidableEq

/-- `scheduleAudioChunkInternal`: `startTime = max(ctx.currentTime,
nextPlayTime)`, `nextPlayTime = startTime + duration`, and a `ChunkTiming`
entry is appended. -/
def scheduleAudioChunkInternal (st : SchedState) (now : ℚ) (ch : InChunk) :
    SchedState :=
  let startTime := max now st.nextPlayTime
  let nextPlay := startTime + ch.duration
  { nextPlayTime := nextPlay
  , timings := st.timings ++
      [{ charStart := ch.charStart, charEnd := ch.charEnd
       , audioStartTime := startTime, audioEndTime := nextPlay }] }

/-- Schedule a sequence of chunks, each arriving at its own current time. -/
def scheduleAll (st : SchedState) : List (ℚ × InChunk) → SchedState
  | [] => st
  | (now, ch) :: rest => scheduleAll (scheduleAudioChunkInternal st now ch) rest

/-- Arrivals are timely when each chunk is scheduled no later than the
pending `nextPlayTime` (the audio never runs dry between chunks). -/
def timelyArrivals : SchedState → List (ℚ × InChunk) → Bool
  | _, [] => true
  | st, (now, ch) :: rest =>
    decide (now ≤ st.nextPlayTime) &&
      timelyArrivals (scheduleAudioChunkInternal st now ch) rest

/-- One session operation keeps `chunks_delivered ≤ len(audio_chunks)` and
never moves the delivery cursor backwards. -/
theorem applySessionOp_inv {s : TTSQueueState}
    (h : s.chunksDelivered ≤ s.audioChunks.length) (op : SessionOp) :
    (applySessionOp s op).chunksDelivered ≤
      (applySessionOp s op).audioChunks.length ∧
    s.chunksDelivered ≤ (applySessionOp s op).chunksDelivered := by
  cases op with
  | pollOp => exact ⟨le_refl _, h⟩
  | appendChunk c =>
    refine ⟨?_, le_refl _⟩
    simp only [applySessionOp, List.length_append, List.length_cons, List.length_nil]
    omega

/-- Along any run of session operations the delivery cursor is monotone and
stays within the chunk list. -/
theorem runSession_delivered_mono (ops : List SessionOp) :
    ∀ (s : TTSQueueState), s.chunksDelivered ≤ s.audioChunks.length →
      s.chunksDelivered ≤ (runSession s ops).chunksDelivered ∧
      (runSession s ops).chunksDelivered ≤
        (runSession s ops).audioChunks.length := by
  induction ops with
  | nil => intro s h; exact ⟨le_refl _, h⟩
  | cons op ops ih =>
    intro s h
    obtain ⟨hinv, hmono⟩ := applySessionOp_inv h op
    obtain ⟨h₁, h₂⟩ := ih _ hinv
    exact ⟨le_trans hmono h₁, h₂⟩

/-- The worker's per-chunk indices: position `i` of the built list carries
`index = idx + i`. -/
theorem buildAudioChunks_index (synth : List Char → List Char × ℚ) :
    ∀ (ts : List (List Char)) (idx off i : Nat) (c : AudioChunkData),
      (buildAudioChunks synth ts idx off).get? i = some c → c.index = idx + i := by
  intro ts
  induction ts with
  | nil => intro idx off i c h; simp [buildAudioChunks] at h
  | cons t rest ih =>
    intro idx off i c h
    cases i with
    | zero =>
      simp only [buildAudioChunks, List.get?_cons_zero, Option.some.injEq] at h
      rw [← h]
      simp
    | succ i =>
      simp only [buildAudioChunks, List.get?_cons_succ] at h
      have := ih (idx + 1) (off + t.length) i c h
      omega

/-- The worker's first chunk starts at the running character offset. -/
theorem buildAudioChunks_head (synth : List Char → List Char × ℚ)
    (ts : List (List Char)) (idx off : Nat) (c : AudioChunkData)
    (h : (buildAudioChunks synth ts idx off).get? 0 = some c) :
    c.charStart = off := by
  cases ts with
  | nil => simp [buildAudioChunks] at h
  | cons t rest =>
    simp only [buildAudioChunks, List.get?_cons_zero, Option.some.injEq] at h
    rw [← h]

/-- Adjacent worker chunks have contiguous character ranges. -/
theorem buildAudioChunks_adjacent (synth : List Char → List Char × ℚ) :
    ∀ (ts : List (List Char)) (idx off i : Nat) (c c₂ : AudioChunkData),
      (buildAudioChunks synth ts idx off).get? i = some c →
      (buildAudioChunks synth ts idx off).get? (i + 1) = some c₂ →
      c.charEnd = c₂.charStart := by
  intro ts
  induction ts with
  | nil => intro idx off i c c₂ h₁ h₂; simp [buildAudioChunks] at h₁
  | cons t rest ih =>
    intro idx off i c c₂ h₁ h₂
    cases i with
    | zero =>
      simp only [buildAudioChunks, List.get?_cons_zero, Option.some.injEq] at h₁
      simp only [buildAudioChunks, List.get?_cons_succ] at h₂
      have := buildAudioChunks_head synth rest (idx + 1) (off + t.length) c₂ h₂
      rw [← h₁, this]
    | succ i =>
      simp only [buildAudioChunks, List.get?_cons_succ] at h₁ h₂
      exact ih (idx + 1) (off + t.length) i c c₂ h₁ h₂

/-- One scheduling step preserves the scheduler's ordering invariants. -/
theorem schedule_step_inv (st : SchedState) (now : ℚ) (ch : InChunk)
    (hdur : 0 ≤ ch.duration)
    (hchain : List.Chain' (fun a b => a.audioEndTime ≤ b.audioStartTime) st.timings)
    (hwithin : ∀ tg ∈ st.timings, tg.audioStartTime ≤ tg.audioEndTime)
    (hlast : ∀ tg ∈ st.timings.getLast?, tg.audioEndTime ≤ st.nextPlayTime) :
    List.Chain' (fun a b => a.audioEndTime ≤ b.audioStartTime)
      (scheduleAudioChunkInternal st now ch).timings ∧
    (∀ tg ∈ (scheduleAudioChunkInternal st now ch).timings,
      tg.audioStartTime ≤ tg.audioEndTime) ∧
    (∀ tg ∈ (scheduleAudioChunkInternal st now ch).timings.getLast?,
      tg.audioEndTime ≤ (scheduleAudioChunkInternal st now ch).nextPlayTime) := by
  refine ⟨?_, ?_, ?_⟩
  · rw [scheduleAudioChunkInternal, List.chain'_append]
    refine ⟨hchain, by simp, ?_⟩
    intro x hx y hy
    rcases List.mem_singleton.mp (List.mem_of_mem_head? hy) with rfl
    exact le_trans (hlast x hx) (le_max_right now st.nextPlayTime)
  · intro tg htg
    rw [scheduleAudioChunkInternal] at htg
    rcases List.mem_append.mp htg with htg | htg
    · exact hwithin tg htg
    · rcases List.mem_singleton.mp htg with rfl
      simpa using hdur
  · intro tg htg
    rw [scheduleAudioChunkInternal] at htg
    rw [List.getLast?_concat] at htg
    rcases Option.mem_some_iff.mp htg with rfl
    simp [scheduleAudioChunkInternal]

/-- The scheduler's ordering invariants hold after scheduling any arrival
sequence of nonnegative-duration chunks. -/
theorem scheduleAll_inv (arr : List (ℚ × InChunk)) :
    ∀ (st : SchedState), (∀ p ∈ arr, 0 ≤ p.2.duration) →
      List.Chain' (fun a b => a.audioEndTime ≤ b.audioStartTime) st.timings →
      (∀ tg ∈ st.timings, tg.audioStartTime ≤ tg.audioEndTime) →
      (∀ tg ∈ st.timings.getLast?, tg.audioEndTime ≤ st.nextPlayTime) →
      List.Chain' (fun a b => a.audioEndTime ≤ b.audioStartTime)
        (scheduleAll st arr).timings ∧
      (∀ tg ∈ (scheduleAll st arr).timings,
        tg.audioStartTime ≤ tg.audioEndTime) ∧
      (∀ tg ∈ (scheduleAll st arr).timings.getLast?,
        tg.audioEndTime ≤ (scheduleAll st arr).nextPlayTime) := by
  induction arr with
  | nil => intro st _ h₁ h₂ h₃; exact ⟨h₁, h₂, h₃⟩
  | cons p rest ih =>
    rcases p with ⟨now, ch⟩
    intro st hdur h₁ h₂ h₃
    obtain ⟨g₁, g₂, g₃⟩ := schedule_step_inv st now ch (hdur (now, ch) (by simp)) h₁ h₂ h₃
    exact ih _ (fun q hq => hdur q (by simp [hq])) g₁ g₂ g₃

/-- With timely arrivals the scheduler is exactly gapless. -/
theorem scheduleAll_gapless (arr : List (ℚ × InChunk)) :
    ∀ (st : SchedState), timelyArrivals st arr = true →
      List.Chain' (fun a b => a.audioEndTime = b.audioStartTime) st.timings →
      (∀ tg ∈ st.timings.getLast?, tg.audioEndTime = st.nextPlayTime) →
      List.Chain' (fun a b => a.audioEndTime = b.audioStartTime)
        (scheduleAll st arr).timings := by
  induction arr with
  | nil => intro st _ h₁ _; exact h₁
  | cons p rest ih =>
    rcases p with ⟨now, ch⟩
    intro st htimely h₁ h₂
    rw [timelyArrivals, Bool.and_eq_true, decide_eq_true_iff] at htimely
    obtain ⟨hnow, htimely₂⟩ := htimely
    have hstart : max now st.nextPlayTime = st.nextPlayTime := max_eq_right hnow
    refine ih _ htimely₂ ?_ ?_
    · rw [scheduleAudioChunkInternal, List.chain'_append]
      refine ⟨h₁, by simp, ?_⟩
      intro x hx y hy
      rcases List.mem_singleton.mp (List.mem_of_mem_head? hy) with rfl
      simpa [hstart] using h₂ x hx
    · intro tg htg
      rw [scheduleAudioChunkInternal] at htg
      rw [List.getLast?_concat] at htg
      rcases Option.mem_some_iff.mp htg with rfl
      simp [scheduleAudioChunkInternal]

/-- End-before-start chaining plus per-chunk sanity gives non-decreasing
start times. -/
theorem chain'_start_mono (l : List ChunkTiming)
    (hchain : List.Chain' (fun a b => a.audioEndTime ≤ b.audioStartTime) l)
    (hwithin : ∀ tg ∈ l, tg.audioStartTime ≤ tg.audioEndTime) :
    List.Chain' (fun a b => a.audioStartTime ≤ b.audioStartTime) l := by
  induction l with
  | nil => simp
  | cons a rest ih =>
    rw [List.chain'_cons'] at hchain ⊢
    refine ⟨?_, ih hchain.2 fun tg htg => hwithin tg (by simp [htg])⟩
    intro y hy
    exact le_trans (hwithin a (by simp)) (hchain.1 y hy)

/-- C1, counterexample: a session whose status is the terminal `Error`,
with every accumulated chunk delivered, still polls `done = false` —
`poll_tts_audio` tests `status == "complete"` only, never `"error"`. -/
theorem poll_done_error_status_cx :
    statusTerminal
      ({ createTTSQueue [] [] 24000 with status := QStatus.error }).status = true ∧
    (pollTtsAudio
      { createTTSQueue [] [] 24000 with status := QStatus.error }).2.chunksDelivered =
      ({ createTTSQueue [] [] 24000 with status := QStatus.error }).audioChunks.length ∧
    (pollTtsAudio
      { createTTSQueue [] [] 24000 with status := QStatus.error }).1.done = false := by
  decide

/-- C1, amended: `poll` returns `done = true` iff the session's status is
`Complete` (not merely terminal: an `Error` session never reports done) and
the number of chunks delivered equals the number accumulated. -/
theorem poll_done_iff_complete (s : TTSQueueState) :
    (pollTtsAudio s).1.done = true ↔
      (s.status = QStatus.complete ∧
        (pollTtsAudio s).2.chunksDelivered = s.audioChunks.length) := by
  simp [pollTtsAudio]

/-- C2, counterexample: streaming the single fragment `"hi "` and flushing
emits the chunk `"hi"`; the concatenation of the emitted chunks is not the
original string — the trailing space is stripped. -/
theorem chunker_reassembly_cx :
    (runChunker workerChunker [['h', 'i', ' ']]).flatten ≠ ['h', 'i', ' '] := by
  decide

/-- C2, amended: for every fragmentation of a string across `add_text`
calls followed by `flush()`, the in-order concatenation of the emitted
chunks equals the original string with some whitespace characters removed:
every non-whitespace character survives exactly once and in order, while
whitespace at the edges of chunks is stripped. -/
theorem chunker_reassembly_whitespace (maxT minT : Nat)
    (frags : List (List Char)) :
    WsDel frags.flatten (runChunker (charChunker maxT minT []) frags).flatten := by
  simpa using runChunker_wsDel maxT minT [] frags

/-- C3: each audio chunk position is returned by `poll` at most once.  A
poll returns exactly the chunk-list positions from the delivery cursor to
the end, advances the cursor to the end by the call itself, and across any
later polls and worker appends the cursor never drops back below that
point — so no later poll can include a position this poll returned. -/
theorem poll_delivers_chunks_once (s : TTSQueueState)
    (h : s.chunksDelivered ≤ s.audioChunks.length) (ops : List SessionOp) :
    (pollTtsAudio s).1.chunks = s.audioChunks.drop s.chunksDelivered ∧
    (pollTtsAudio s).2.chunksDelivered = s.audioChunks.length ∧
    s.audioChunks.length ≤
      (runSession ((pollTtsAudio s).2) ops).chunksDelivered := by
  refine ⟨rfl, rfl, ?_⟩
  exact (runSession_delivered_mono ops ((pollTtsAudio s).2) (le_refl _)).1

/-- C3, witness: a fresh session polled once, then a worker append and a
second poll; the cursor never revisits position 0. -/
theorem poll_delivers_chunks_once_witness :
    (pollTtsAudio (createTTSQueue [] [] 24000)).1.chunks =
      (createTTSQueue [] [] 24000).audioChunks.drop
        (createTTSQueue [] [] 24000).chunksDelivered ∧
    (pollTtsAudio (createTTSQueue [] [] 24000)).2.chunksDelivered =
      (createTTSQueue [] [] 24000).audioChunks.length ∧
    (createTTSQueue [] [] 24000).audioChunks.length ≤
      (runSession ((pollTtsAudio (createTTSQueue [] [] 24000)).2)
        [SessionOp.appendChunk
          { index := 0, audioBase64 := [], charStart := 0, charEnd := 2
          , durationMs := 0 },
         SessionOp.pollOp]).chunksDelivered :=
  poll_delivers_chunks_once (createTTSQueue [] [] 24000) (by decide)
    [SessionOp.appendChunk
      { index := 0, audioBase64 := [], charStart := 0, charEnd := 2
      , durationMs := 0 },
     SessionOp.pollOp]

/-- C4: for every synthesis backend and every fragment stream, the audio
chunks the worker appends are 0-based, strictly increasing and gap-free
(`index = i` at list position `i`), the first chunk's range starts at
character 0, and adjacent chunks satisfy
`chunk[i].charEnd = chunk[i+1].charStart`: character ranges are
non-overlapping, contiguous and order-preserving. -/
theorem worker_chunk_ranges (synth : List Char → List Char × ℚ)
    (frags : List (List Char)) :
    (∀ (i : Nat) (c : AudioChunkData),
      (runTtsQueueAudio synth frags).get? i = some c → c.index = i) ∧
    (∀ c : AudioChunkData,
      (runTtsQueueAudio synth frags).get? 0 = some c → c.charStart = 0) ∧
    (∀ (i : Nat) (c c₂ : AudioChunkData),
      (runTtsQueueAudio synth frags).get? i = some c →
      (runTtsQueueAudio synth frags).get? (i + 1) = some c₂ →
      c.charEnd = c₂.charStart) := by
  refine ⟨?_, ?_, ?_⟩
  · intro i c h
    simpa using buildAudioChunks_index synth (runChunker workerChunker frags) 0 0 i c h
  · intro c h
    exact buildAudioChunks_head synth (runChunker workerChunker frags) 0 0 c h
  · intro i c c₂ h₁ h₂
    exact buildAudioChunks_adjacent synth (runChunker workerChunker frags) 0 0 i c c₂ h₁ h₂

/-- C5: during `add_text` (unforced), no chunk is emitted while the trimmed
buffer tokenizes to fewer than `min_tokens` tokens and fewer than
`max_tokens` tokens: the first guard of `_try_extract_chunk` yields `None`,
and the extraction loop stops at once. -/
theorem chunker_no_early_emit (c : Chunker τ) (t : List Char)
    (hmin : (c.tok.encode (trim (c.buffer ++ t))).length < c.minTokens)
    (hmax : (c.tok.encode (trim (c.buffer ++ t))).length < c.maxTokens) :
    (addText c t).1 = [] := by
  unfold addText
  apply extractLoop_emits_nil
  apply tryExtract_none_of_lt_min
  exact hmin

/-- C5, witness: two buffered characters against the default 15/50
thresholds emit nothing. -/
theorem chunker_no_early_emit_witness :
    (addText workerChunker ['h', 'i']).1 = [] :=
  chunker_no_early_emit workerChunker ['h', 'i'] (by decide) (by decide)

/-- C6, counterexample: forced emission of three tokens with no sentence
boundary under `max_tokens = 50` splits at the end of the tokens (3), not
"exactly at maxTokens" as claimed. -/
theorem find_best_split_forced_cx :
    sentenceBoundaries charTok.isEos ['a', 'b', 'c'] = [] ∧
    findBestSplit charTok.isEos 50 ['a', 'b', 'c'] true = 3 ∧ (3 : Nat) ≠ 50 := by
  decide

/-- C6, amended: `_find_best_split` picks the largest sentence boundary at
or below `max_tokens` when one exists; with boundaries only beyond
`max_tokens` it picks the first; with no boundary at all it splits exactly
at `max_tokens` when the token count has reached `max_tokens`, but under
forced emission below `max_tokens` it splits at the end of the tokens (the
whole buffer), not at `max_tokens`. -/
theorem find_best_split_characterized (isEos : τ → Bool) (maxT : Nat)
    (tokens : List τ) (force : Bool) :
    (sentenceBoundaries isEos tokens = [] → maxT ≤ tokens.length →
      findBestSplit isEos maxT tokens force = maxT) ∧
    (sentenceBoundaries isEos tokens = [] → tokens.length < maxT → force = true →
      findBestSplit isEos maxT tokens force = tokens.length) ∧
    ((∃ b ∈ sentenceBoundaries isEos tokens, b ≤ maxT) →
      findBestSplit isEos maxT tokens force ∈ sentenceBoundaries isEos tokens ∧
      findBestSplit isEos maxT tokens force ≤ maxT ∧
      ∀ b ∈ sentenceBoundaries isEos tokens, b ≤ maxT →
        b ≤ findBestSplit isEos maxT tokens force) ∧
    (sentenceBoundaries isEos tokens ≠ [] →
      (∀ b ∈ sentenceBoundaries isEos tokens, maxT < b) →
      (sentenceBoundaries isEos tokens).head? =
        some (findBestSplit isEos maxT tokens force)) :=
  findBestSplit_spec isEos maxT tokens force

/-- C7: once `end_tts_queue` has taken effect, `add_tts_text` always fails
with the already-ended error, leaving the session untouched, and a second
`end_tts_queue` returns the non-error `{"already_ended": true}`
acknowledgment without changing the state — in particular without
enqueuing a second EOF marker into the pending-text queue. -/
theorem add_text_after_end_rejected (s : TTSQueueState) (t : List Char) :
    addTtsText (endTtsQueue s).2 t =
      (AddTextResult.alreadyEnded, (endTtsQueue s).2) ∧
    endTtsQueue (endTtsQueue s).2 =
      (EndResult.alreadyEnded, (endTtsQueue s).2) := by
  have hend : (endTtsQueue s).2.endSignaled = true := by
    unfold endTtsQueue
    by_cases h : s.endSignaled
    · rw [if_pos h]; exact h
    · rw [if_neg h]
      cases hput : putNowait s.textQueue none with
      | none => rfl
      | some q => rfl
  constructor
  · unfold addTtsText
    rw [if_pos hend]
  · conv_lhs => rw [endTtsQueue]
    rw [if_pos hend]

/-- C8, counterexample: the second chunk arrives at time 2, after the first
chunk's audio ended at time 1; it is scheduled at its arrival time, so
`audioEndTime[0] = 1 ≠ 2 = audioStartTime[1]` — a gap, refuting
unconditional gapless concatenation. -/
theorem scheduler_gap_cx :
    (scheduleAll { nextPlayTime := 0, timings := [] }
        [(0, { charStart := 0, charEnd := 5, duration := 1 }),
         (2, { charStart := 5, charEnd := 9, duration := 1 })]).timings =
      [{ charStart := 0, charEnd := 5, audioStartTime := 0, audioEndTime := 1 },
       { charStart := 5, charEnd := 9, audioStartTime := 2, audioEndTime := 3 }] ∧
    (1 : ℚ) ≠ 2 := by
  have h₁ : max (0 : ℚ) 0 = 0 := max_self 0
  have h₂ : max (2 : ℚ) 1 = 2 := max_eq_left (by norm_num)
  refine ⟨?_, by norm_num⟩
  simp only [scheduleAll, scheduleAudioChunkInternal, h₁, zero_add, h₂]
  norm_num

/-- C8, amended: chunks scheduled in index order with
`startTime = max(now, nextPlayTime)` and
`nextPlayTime = startTime + duration` always yield non-decreasing
`audioStartTime` and non-overlapping ordered intervals
(`audioEndTime[i] ≤ audioStartTime[i+1]`); the gapless equality
`audioEndTime[i] = audioStartTime[i+1]` holds whenever every chunk arrives
no later than the pending `nextPlayTime` (no buffer underrun) — a chunk
arriving after the previous audio ended starts at its arrival time
instead, leaving a gap. -/
theorem scheduler_monotone_gapless (t₀ : ℚ) (arr : List (ℚ × InChunk))
    (hdur : ∀ p ∈ arr, 0 ≤ p.2.duration) :
    List.Chain' (fun a b => a.audioStartTime ≤ b.audioStartTime)
      (scheduleAll { nextPlayTime := t₀, timings := [] } arr).timings ∧
    List.Chain' (fun a b => a.audioEndTime ≤ b.audioStartTime)
      (scheduleAll { nextPlayTime := t₀, timings := [] } arr).timings ∧
    (timelyArrivals { nextPlayTime := t₀, timings := [] } arr = true →
      List.Chain' (fun a b => a.audioEndTime = b.audioStartTime)
        (scheduleAll { nextPlayTime := t₀, timings := [] } arr).timings) := by
  obtain ⟨h₁, h₂, h₃⟩ := scheduleAll_inv arr { nextPlayTime := t₀, timings := [] }
    hdur (by simp) (by simp) (by simp)
  refine ⟨chain'_start_mono _ h₁ h₂, h₁, ?_⟩
  intro ht
  exact scheduleAll_gapless arr _ ht (by simp) (by simp)

/-- C8, witness: two timely chunks (each arriving before the pending
`nextPlayTime` elapses) are scheduled gapless and in order. -/
theorem scheduler_monotone_gapless_witness :
    List.Chain' (fun a b => a.audioStartTime ≤ b.audioStartTime)
      (scheduleAll { nextPlayTime := 0, timings := [] }
        [(0, { charStart := 0, charEnd := 5, duration := 1 }),
         (1, { charStart := 5, charEnd := 9, duration := 2 })]).timings ∧
    List.Chain' (fun a b => a.audioEndTime = b.audioStartTime)
      (scheduleAll { nextPlayTime := 0, timings := [] }
        [(0, { charStart := 0, charEnd := 5, duration := 1 }),
         (1, { charStart := 5, charEnd := 9, duration := 2 })]).timings := by
  have hdur : ∀ p ∈ [((0 : ℚ), { charStart := 0, charEnd := 5, duration := 1 : InChunk }),
      (1, { charStart := 5, charEnd := 9, duration := 2 })], 0 ≤ p.2.duration := by
    intro p hp
    rcases List.mem_cons.mp hp with rfl | hp
    · norm_num
    · rcases List.mem_singleton.mp hp with rfl
      norm_num
  have htimely : timelyArrivals { nextPlayTime := 0, timings := [] }
      [((0 : ℚ), { charStart := 0, charEnd := 5, duration := 1 : InChunk }),
       (1, { charStart := 5, charEnd := 9, duration := 2 })] = true := by
    have h₁ : max (0 : ℚ) 0 = 0 := max_self 0
    simp only [timelyArrivals, scheduleAudioChunkInternal, h₁, zero_add,
      Bool.and_eq_true, decide_eq_true_eq]
    norm_num
  exact ⟨(scheduler_monotone_gapless 0 _ hdur).1,
    (scheduler_monotone_gapless 0 _ hdur).2.2 htimely⟩

/-- C9: the `"Queue full"` branch of `add_tts_text` is unreachable.
Sessions are created with an unbounded text queue (`asyncio.Queue()` with
`maxsize = 0`), every session operation keeps it unbounded, a non-blocking
put on an unbounded queue never raises `QueueFull`, and on a
not-yet-ended session `add_tts_text` always enqueues the fragment. -/
theorem queue_full_branch_unreachable (s : TTSQueueState) (t : List Char)
    (hq : s.textQueue.maxsize = 0) :
    (∀ qid v sr, (createTTSQueue qid v sr).textQueue.maxsize = 0) ∧
    (addTtsText s t).1 ≠ AddTextResult.queueFull ∧
    (addTtsText s t).2.textQueue.maxsize = 0 ∧
    (endTtsQueue s).2.textQueue.maxsize = 0 ∧
    (s.endSignaled = false → (addTtsText s t).1 = AddTextResult.queued) := by
  have hfull : ∀ q : TextQueue, q.maxsize = 0 → q.isFull = false := by
    intro q h
    simp [TextQueue.isFull, h]
  have hput : ∀ (q : TextQueue) (x : Option (List Char)), q.maxsize = 0 →
      putNowait q x = some { q with items := q.items ++ [x] } := by
    intro q x h
    unfold putNowait
    rw [if_neg (by simp [hfull q h])]
  refine ⟨fun qid v sr => rfl, ?_, ?_, ?_, ?_⟩
  · unfold addTtsText
    by_cases h : s.endSignaled
    · rw [if_pos h]; simp
    · rw [if_neg h, hput s.textQueue (some t) hq]; simp
  · unfold addTtsText
    by_cases h : s.endSignaled
    · rw [if_pos h]; exact hq
    · rw [if_neg h, hput s.textQueue (some t) hq]; exact hq
  · unfold endTtsQueue
    by_cases h : s.endSignaled
    · rw [if_pos h]; exact hq
    · rw [if_neg h, hput _ none hq]; exact hq
  · intro h
    unfold addTtsText
    rw [if_neg (by simp [h]), hput s.textQueue (some t) hq]

/-- C9, witness: a fresh not-yet-ended session accepts a fragment; the
full-queue branch is not taken. -/
theorem queue_full_branch_unreachable_witness :
    (∀ qid v sr, (createTTSQueue qid v sr).textQueue.maxsize = 0) ∧
    (addTtsText (createTTSQueue [] [] 24000) ['h']).1 ≠ AddTextResult.queueFull ∧
    (addTtsText (createTTSQueue [] [] 24000) ['h']).2.textQueue.maxsize = 0 ∧
    (endTtsQueue (createTTSQueue [] [] 24000)).2.textQueue.maxsize = 0 ∧
    ((createTTSQueue [] [] 24000).endSignaled = false →
      (addTtsText (createTTSQueue [] [] 24000) ['h']).1 = AddTextResult.queued) :=
  queue_full_branch_unreachable (createTTSQueue [] [] 24000) ['h'] (by decide)

/-- C10: every chunk the chunker emits, whether from `add_text` or from
`flush`, is non-empty and equal to its own strip — no leading or trailing
whitespace and never whitespace-only (character tokenizer, any
configuration and buffer). -/
theorem chunker_chunks_nonempty_trimmed (maxT minT : Nat) (b t : List Char) :
    (∀ ch ∈ (addText (charChunker maxT minT b) t).1, ch ≠ [] ∧ trim ch = ch) ∧
    (∀ ch ∈ (flush (charChunker maxT minT b)).1, ch ≠ [] ∧ trim ch = ch) :=
  ⟨addText_chunks_clean maxT minT b t, flush_chunks_clean maxT minT b⟩

end SayServer
